import Mathlib

/-! Verification model of the page pool in `src/deps/v8/src/heap/page-pool.cc`.

Shallow-embedding conventions:
* `Isolate*` keys are modelled as `Nat` (opaque owner identities, used only
  for equality), `InternalTime` as `Nat`, sizes (`size_t`) as `Nat`.
* C++ vectors used as stacks (`push_back` / `back` / `pop_back`) are modelled
  as Lean lists with the vector BACK at the list HEAD: `push_back` is `cons`
  and `back` is `head`.  The shared pool likewise keeps its most recently
  pushed batch first, and each batch keeps its most recently pushed entry
  first.
* `std::unordered_map` is modelled as an association list; the distinctness
  of its keys is a hypothesis where a proof needs it.
* The large-page `pages_` vector is iterated front-to-back by `Remove`, so it
  keeps C++ order: list head = vector front, `emplace_back` appends at the
  list end.
* Mutexes guard single atomic steps here, so each member function becomes a
  pure state transformer; fallible operations return `Option`, and a fatal
  assertion (`CHECK` / `DCHECK` on entry) is modelled as `Option.none`.
-/

namespace PagePoolModel

/-- A large page chunk: an identity plus the value reported by `size()`. -/
structure LargePage where
  id : Nat
  size : Nat
deriving DecidableEq, Repr

/-- Association-list lookup, first match; models `unordered_map::find`. -/
def lookupPool {α : Type} (l : List (Nat × List α)) (k : Nat) : Option (List α) :=
  match l with
  | [] => none
  | (k2, v) :: rest => if k2 = k then some v else lookupPool rest k

/-- Remove the entry for a key; models `unordered_map::erase`. -/
def erasePool {α : Type} (l : List (Nat × List α)) (k : Nat) : List (Nat × List α) :=
  match l with
  | [] => []
  | (k2, v) :: rest => if k2 = k then rest else (k2, v) :: erasePool rest k

/-- Replace the value stored at a key (in-place mutation through an iterator). -/
def updatePool {α : Type} (l : List (Nat × List α)) (k : Nat) (v : List α) :
    List (Nat × List α) :=
  match l with
  | [] => []
  | (k2, w) :: rest => if k2 = k then (k2, v) :: rest else (k2, w) :: updatePool rest k v

/-- Models `local_pools_[isolate].emplace_back(entry)`: push the entry onto the
owner's stack, creating the stack when the owner is absent. -/
def putLocalList {α : Type} (l : List (Nat × List α)) (k : Nat) (e : α) :
    List (Nat × List α) :=
  match l with
  | [] => [(k, [e])]
  | (k2, v) :: rest => if k2 = k then (k2, e :: v) :: rest else (k2, v) :: putLocalList rest k e

/-- State of `PagePool::PoolImpl<PoolEntry>`: the per-owner local stacks and the
time-tagged shared batch list (most recent batch first). -/
structure PoolImpl (α : Type) where
  local_pools : List (Nat × List α)
  shared_pool : List (Nat × List α)
deriving DecidableEq, Repr

namespace PoolImpl

/-- `PoolImpl::TearDown`: `DCHECK(local_pools_.empty()); shared_pool_.clear();`.
The fatal assertion is modelled as `none`. -/
def TearDown {α : Type} (st : PoolImpl α) : Option (PoolImpl α) :=
  if st.local_pools.isEmpty then some { st with shared_pool := [] } else none

/-- `PoolImpl::PutLocal`. -/
def PutLocal {α : Type} (st : PoolImpl α) (isolate : Nat) (entry : α) : PoolImpl α :=
  { st with local_pools := putLocalList st.local_pools isolate entry }

/-- `PoolImpl::Get`: prefer the owner's local stack; otherwise pop from the most
recently pushed shared batch, dropping the batch when it empties. -/
def Get {α : Type} (st : PoolImpl α) (isolate : Nat) : Option α × PoolImpl α :=
  match lookupPool st.local_pools isolate with
  | none =>
    match st.shared_pool with
    | [] => (none, st)
    | (t, entries) :: restBatches =>
      match entries with
      | [] => (none, st)
      | e :: entriesRest =>
        if entriesRest.isEmpty then
          (some e, { st with shared_pool := restBatches })
        else
          (some e, { st with shared_pool := (t, entriesRest) :: restBatches })
  | some entries =>
    match entries with
    | [] => (none, st)
    | e :: entriesRest =>
      if entriesRest.isEmpty then
        (some e, { st with local_pools := erasePool st.local_pools isolate })
      else
        (some e, { st with local_pools := updatePool st.local_pools isolate entriesRest })

/-- `PoolImpl::MoveLocalToShared`: detach the owner's stack into a new shared
batch tagged with the release time; returns whether the shared pool is
non-empty afterwards. -/
def MoveLocalToShared {α : Type} (st : PoolImpl α) (isolate : Nat) (release_time : Nat) :
    Bool × PoolImpl α :=
  match lookupPool st.local_pools isolate with
  | none => (!st.shared_pool.isEmpty, st)
  | some entries =>
    let st2 : PoolImpl α :=
      { local_pools := erasePool st.local_pools isolate,
        shared_pool := (release_time, entries) :: st.shared_pool }
    (!st2.shared_pool.isEmpty, st2)

/-- `PoolImpl::ReleaseShared`: detach and drop the whole shared list. -/
def ReleaseShared {α : Type} (st : PoolImpl α) : PoolImpl α :=
  { st with shared_pool := [] }

/-- `PoolImpl::ReleaseLocal()`: drop every owner's local stack. -/
def ReleaseLocalAll {α : Type} (st : PoolImpl α) : PoolImpl α :=
  { st with local_pools := [] }

/-- `PoolImpl::ReleaseLocal(isolate)`: drop one owner's local stack. -/
def ReleaseLocal {α : Type} (st : PoolImpl α) (isolate : Nat) : PoolImpl α :=
  { st with local_pools := erasePool st.local_pools isolate }

/-- `PoolImpl::Size`: total entry count over local stacks and shared batches. -/
def Size {α : Type} (st : PoolImpl α) : Nat :=
  (st.local_pools.map (fun p => p.2.length)).sum
    + (st.shared_pool.map (fun b => b.2.length)).sum

/-- `PoolImpl::LocalSize`. -/
def LocalSize {α : Type} (st : PoolImpl α) (isolate : Nat) : Nat :=
  match lookupPool st.local_pools isolate with
  | some v => v.length
  | none => 0

/-- `PoolImpl::SharedSize`. -/
def SharedSize {α : Type} (st : PoolImpl α) : Nat :=
  (st.shared_pool.map (fun b => b.2.length)).sum

/-- `PoolImpl::ReleaseUpTo`: erase every shared batch tagged at or before the
release time, returning the number of entries removed. -/
def ReleaseUpTo {α : Type} (st : PoolImpl α) (release_time : Nat) : Nat × PoolImpl α :=
  let removed := st.shared_pool.filter (fun b => decide (b.1 ≤ release_time))
  let kept := st.shared_pool.filter (fun b => !(decide (b.1 ≤ release_time)))
  ((removed.map (fun b => b.2.length)).sum, { st with shared_pool := kept })

end PoolImpl

/-- State of `PagePool::LargePagePoolImpl`: time-tagged large pages in
insertion order, plus the tracked aggregate byte count `total_size_`. -/
structure LargePagePoolImpl where
  pages : List (Nat × LargePage)
  total_size : Nat
deriving DecidableEq, Repr

namespace LargePagePoolImpl

/-- `LargePagePoolImpl::ComputeTotalSize`. -/
def ComputeTotalSize (st : LargePagePoolImpl) : Nat :=
  (st.pages.map (fun e => e.2.size)).sum

/-- The `erase_if` body of `LargePagePoolImpl::Add`: scan the candidates in
order; admit a candidate (append it to `pages_` tagged with `time` and grow
`total_size_`) only when the budget allows, otherwise leave it in the caller's
collection.  Returns (admitted any, candidates kept by the caller, new state). -/
def addAux (candidates : List LargePage) (time max_total_size : Nat)
    (st : LargePagePoolImpl) : Bool × List LargePage × LargePagePoolImpl :=
  match candidates with
  | [] => (false, [], st)
  | p :: rest =>
    if st.total_size + p.size > max_total_size then
      let r := addAux rest time max_total_size st
      (r.1, p :: r.2.1, r.2.2)
    else
      let r := addAux rest time max_total_size
        { pages := st.pages ++ [(time, p)], total_size := st.total_size + p.size }
      (true, r.2.1, r.2.2)

/-- `LargePagePoolImpl::Add`; `max_total_size` is the externally configured
budget `v8_flags.max_large_page_pool_size * MB`. -/
def Add (st : LargePagePoolImpl) (candidates : List LargePage)
    (time max_total_size : Nat) : Bool × List LargePage × LargePagePoolImpl :=
  addAux candidates time max_total_size st

/-- The selection loop of `LargePagePoolImpl::Remove`: scan `pages_`
front-to-back keeping the (index, page) of the smallest page whose size is at
least `chunk_size`; the strict `<` comparison makes the earliest such page win
ties. -/
def bestFitAux (ps : List (Nat × LargePage)) (chunk_size : Nat) (i : Nat)
    (sel : Option (Nat × LargePage)) : Option (Nat × LargePage) :=
  match ps with
  | [] => sel
  | p :: rest =>
    if p.2.size < chunk_size then bestFitAux rest chunk_size (i + 1) sel
    else
      match sel with
      | none => bestFitAux rest chunk_size (i + 1) (some (i, p.2))
      | some q =>
        if p.2.size < q.2.size then bestFitAux rest chunk_size (i + 1) (some (i, p.2))
        else bestFitAux rest chunk_size (i + 1) (some q)

/-- `LargePagePoolImpl::Remove`: best-fit removal of a page of size at least
`chunk_size`. -/
def Remove (st : LargePagePoolImpl) (chunk_size : Nat) :
    Option LargePage × LargePagePoolImpl :=
  match bestFitAux st.pages chunk_size 0 none with
  | none => (none, st)
  | some (j, pg) =>
    (some pg,
      { pages := st.pages.eraseIdx j, total_size := st.total_size - pg.size })

/-- `LargePagePoolImpl::ReleaseAll`. -/
def ReleaseAll (st : LargePagePoolImpl) : LargePagePoolImpl :=
  { pages := [], total_size := 0 }

/-- The `erase_if` body of `LargePagePoolImpl::ReleaseUpTo`: drop every entry
tagged at or before the release time, decrementing `total_size_` per removal.
Returns (kept entries, new `total_size_`). -/
def releaseUpToAux (ps : List (Nat × LargePage)) (release_time total : Nat) :
    List (Nat × LargePage) × Nat :=
  match ps with
  | [] => ([], total)
  | e :: rest =>
    if e.1 ≤ release_time then releaseUpToAux rest release_time (total - e.2.size)
    else
      let r := releaseUpToAux rest release_time total
      (e :: r.1, r.2)

/-- `LargePagePoolImpl::ReleaseUpTo`.  The source initialises `freed` to zero
and never increments it inside the `erase_if` loop, so the returned count is
always zero regardless of how many entries are removed. -/
def ReleaseUpTo (st : LargePagePoolImpl) (release_time : Nat) :
    Nat × LargePagePoolImpl :=
  let r := releaseUpToAux st.pages release_time st.total_size
  (0, { pages := r.1, total_size := r.2 })

/-- `LargePagePoolImpl::TearDown`: `CHECK(pages_.empty())`; the fatal check is
modelled as `none`. -/
def TearDown (st : LargePagePoolImpl) : Option LargePagePoolImpl :=
  if st.pages.isEmpty then some st else none

end LargePagePoolImpl

/-- State of the `PagePool` facade: one generic pool for fixed pages, one for
zone reservations, the large-page pool, and the logical clock `next_time_`. -/
structure PagePoolState (π ζ : Type) where
  page_pool : PoolImpl π
  zone_pool : PoolImpl ζ
  large_pool : LargePagePoolImpl
  next_time : Nat
deriving DecidableEq, Repr

namespace PagePoolState

/-- `PagePool::Add`: admit one fixed page into the owner's local stack. -/
def Add {π ζ : Type} (pp : PagePoolState π ζ) (isolate : Nat) (chunk : π) :
    PagePoolState π ζ :=
  { pp with page_pool := pp.page_pool.PutLocal isolate chunk }

/-- `PagePool::Remove`: pop a fixed page for the owner. -/
def Remove {π ζ : Type} (pp : PagePoolState π ζ) (isolate : Nat) :
    Option π × PagePoolState π ζ :=
  let r := pp.page_pool.Get isolate
  (r.1, { pp with page_pool := r.2 })

/-- `PagePool::RemoveLarge`: the isolate argument is accepted but unused; the
call is a plain pass-through to `large_pool_.Remove(chunk_size)`. -/
def RemoveLarge {π ζ : Type} (pp : PagePoolState π ζ) (isolate : Nat)
    (chunk_size : Nat) : Option LargePage × PagePoolState π ζ :=
  let r := pp.large_pool.Remove chunk_size
  (r.1, { pp with large_pool := r.2 })

/-- `PagePool::ReleaseImmediately`. -/
def ReleaseImmediately {π ζ : Type} (pp : PagePoolState π ζ) (isolate : Nat) :
    PagePoolState π ζ :=
  { pp with
    page_pool := pp.page_pool.ReleaseLocal isolate,
    zone_pool := pp.zone_pool.ReleaseLocal isolate,
    large_pool := pp.large_pool.ReleaseAll }

/-- `PagePool::ReleaseOnTearDown`.  The configuration flag
`memory_pool_share_memory_on_teardown` and the result of
`FindAnotherIsolateLocked` (whether a live peer isolate exists to host the
deferred release task) are passed as booleans; scheduling the task itself is
an external side effect with no pool-state footprint. -/
def ReleaseOnTearDown {π ζ : Type} (pp : PagePoolState π ζ) (isolate : Nat)
    (share_on_teardown peer_exists : Bool) : PagePoolState π ζ :=
  if !share_on_teardown then pp.ReleaseImmediately isolate
  else
    let time := pp.next_time
    let r1 := pp.page_pool.MoveLocalToShared isolate time
    let r2 := pp.zone_pool.MoveLocalToShared isolate time
    let pools :=
      if (r1.1 || r2.1) && !peer_exists then
        (r1.2.ReleaseShared, r2.2.ReleaseShared)
      else (r1.2, r2.2)
    { page_pool := pools.1, zone_pool := pools.2,
      large_pool := pp.large_pool.ReleaseAll, next_time := pp.next_time + 1 }

/-- `PagePool::GetCount`. -/
def GetCount {π ζ : Type} (pp : PagePoolState π ζ) (isolate : Nat) : Nat :=
  pp.page_pool.LocalSize isolate

/-- `PagePool::GetSharedCount`. -/
def GetSharedCount {π ζ : Type} (pp : PagePoolState π ζ) : Nat :=
  pp.page_pool.SharedSize

/-- `PagePool::GetTotalCount`. -/
def GetTotalCount {π ζ : Type} (pp : PagePoolState π ζ) : Nat :=
  pp.page_pool.Size

/-- `PagePool::ReleaseUpTo`: timed eviction on both generic pools. -/
def ReleaseUpTo {π ζ : Type} (pp : PagePoolState π ζ) (release_time : Nat) :
    PagePoolState π ζ :=
  { pp with
    page_pool := (pp.page_pool.ReleaseUpTo release_time).2,
    zone_pool := (pp.zone_pool.ReleaseUpTo release_time).2 }

end PagePoolState

/-- List-level reading of `PoolImpl::LocalSize`: the stack length stored at a
key, or 0 when the key is absent. -/
def localLen {α : Type} (l : List (Nat × List α)) (k : Nat) : Nat :=
  match lookupPool l k with
  | some v => v.length
  | none => 0

/-- The structural invariant of the generic pool (spec section 3): no owner
maps to an empty local stack and no shared batch is empty. -/
def PoolInvariant {α : Type} (st : PoolImpl α) : Prop :=
  (∀ p ∈ st.local_pools, p.2 ≠ []) ∧ (∀ b ∈ st.shared_pool, b.2 ≠ [])

/-- The large pool's bookkeeping invariant: the tracked aggregate equals the
recomputed sum of retained sizes. -/
def LargeInvariant (st : LargePagePoolImpl) : Prop :=
  st.total_size = st.ComputeTotalSize

/-- Repeated `PutLocal` admissions by one owner, in admission order. -/
def putAll {α : Type} (st : PoolImpl α) (isolate : Nat) (es : List α) : PoolImpl α :=
  es.foldl (fun s e => s.PutLocal isolate e) st

/-- The outputs of a run of consecutive `Get` calls by one owner. -/
def getSeq {α : Type} (st : PoolImpl α) (isolate : Nat) : Nat → List (Option α)
  | 0 => []
  | n + 1 =>
    let r := st.Get isolate
    r.1 :: getSeq r.2 isolate n

/-- A large pool holding one entry tagged with time 0 and size 8. -/
def onePagePool : LargePagePoolImpl :=
  { pages := [(0, { id := 1, size := 8 })], total_size := 8 }

/-- A large pool retaining chunks of sizes 10, 20 and 30 (spec section 8). -/
def thirtyPool : LargePagePoolImpl :=
  { pages := [(0, { id := 1, size := 10 }), (0, { id := 2, size := 20 }),
              (0, { id := 3, size := 30 })],
    total_size := 60 }

/-- A generic pool where owner 7 holds three local entries and one shared
batch is pending. -/
def poolA : PoolImpl Nat :=
  { local_pools := [(7, [3, 2, 1])], shared_pool := [(0, [5])] }

/-- A facade state where owner 7 has admitted the three pages 1, 2, 3 (so its
local stack is `[3, 2, 1]`, most recent first) and nothing else is pooled. -/
def ppA : PagePoolState Nat Nat :=
  { page_pool := { local_pools := [(7, [3, 2, 1])], shared_pool := [] },
    zone_pool := { local_pools := [], shared_pool := [] },
    large_pool := { pages := [], total_size := 0 },
    next_time := 5 }

/- ===================== Theorems ===================== -/

/-! General helper lemmas about the list combinators used by the model. -/

theorem filter_map_sum_partition {β : Type} (l : List β) (p : β → Bool) (f : β → Nat) :
    ((l.filter p).map f).sum + ((l.filter (fun b => !(p b))).map f).sum
      = (l.map f).sum := by
  induction l with
  | nil => simp
  | cons a l ih =>
    cases hpa : p a <;> simp [List.filter_cons, hpa] <;> omega

/-- Claim C10: `PagePool::RemoveLarge` ignores its isolate argument — its
result and the final pool state depend only on the requested chunk size and
the large pool's contents. -/
theorem claim_C10_RemoveLarge_owner_independent :
    ∀ (π ζ : Type) (pp : PagePoolState π ζ) (iso1 iso2 chunk_size : Nat),
      pp.RemoveLarge iso1 chunk_size = pp.RemoveLarge iso2 chunk_size := by
  intro π ζ pp iso1 iso2 chunk_size
  rfl

/-- Claim C9: tearing down a sub-pool with non-empty local state hits the
fatal-assertion path (modelled as `none`); with the precondition met, the
generic pool's teardown clears the shared list and the large pool's teardown
returns the (empty) pool unchanged. -/
theorem claim_C9_TearDown_fatal_on_nonempty :
    ∀ (α : Type) (st : PoolImpl α) (lst : LargePagePoolImpl),
      (st.local_pools ≠ [] → st.TearDown = none) ∧
      (st.local_pools = [] → st.TearDown = some { st with shared_pool := [] }) ∧
      (lst.pages ≠ [] → lst.TearDown = none) ∧
      (lst.pages = [] → lst.TearDown = some lst) := by
  intro α st lst
  refine ⟨?_, ?_, ?_, ?_⟩
  · intro h
    simp [PoolImpl.TearDown, List.isEmpty_iff, h]
  · intro h
    simp [PoolImpl.TearDown, List.isEmpty_iff, h]
  · intro h
    simp [LargePagePoolImpl.TearDown, List.isEmpty_iff, h]
  · intro h
    simp [LargePagePoolImpl.TearDown, List.isEmpty_iff, h]

/-- Claim C1 (code bug): on a pool holding a single entry tagged 0 of size 8,
`LargePagePoolImpl::ReleaseUpTo 0` does remove the entry and zero the
aggregate, yet returns a freed count of 0 instead of the 1 entry it removed —
the source initialises `freed` and never increments it. -/
theorem claim_C1_release_count_stuck_at_zero :
    (onePagePool.ReleaseUpTo 0).2.pages = []
      ∧ (onePagePool.ReleaseUpTo 0).2.total_size = 0
      ∧ (onePagePool.ReleaseUpTo 0).1 = 0
      ∧ (onePagePool.ReleaseUpTo 5).1 = 0 := by
  decide

/-- Claim C7: the generic pool's timed eviction removes exactly the shared
batches tagged at or before the release time, leaves the later-tagged batches
and all local stacks untouched, and returns the total number of entries in
the removed batches. -/
theorem claim_C7_pool_ReleaseUpTo_exact :
    ∀ (α : Type) (st : PoolImpl α) (T : Nat),
      (st.ReleaseUpTo T).2.local_pools = st.local_pools ∧
      (st.ReleaseUpTo T).2.shared_pool
        = st.shared_pool.filter (fun b => decide (T < b.1)) ∧
      (st.ReleaseUpTo T).1
        = ((st.shared_pool.filter (fun b => decide (b.1 ≤ T))).map
            (fun b => b.2.length)).sum ∧
      (st.ReleaseUpTo T).1 + (st.ReleaseUpTo T).2.SharedSize = st.SharedSize := by
  intro α st T
  refine ⟨rfl, ?_, rfl, ?_⟩
  · simp only [PoolImpl.ReleaseUpTo]
    apply List.filter_congr
    intro b _
    by_cases h : b.1 ≤ T
    · simp [h, Nat.not_lt.mpr h]
    · simp [h, Nat.lt_of_not_le h]
  · simpa [PoolImpl.ReleaseUpTo, PoolImpl.SharedSize] using
      filter_map_sum_partition st.shared_pool
        (fun b => decide (b.1 ≤ T)) (fun b => b.2.length)

/-! Association-list lemmas shared by the remaining claims. -/

theorem localLen_head {α : Type} (a : Nat × List α) (rest : List (Nat × List α)) :
    localLen (a :: rest) a.1 = a.2.length := by
  obtain ⟨k, v⟩ := a
  simp [localLen, lookupPool]

theorem localLen_cons_ne {α : Type} (a : Nat × List α) (rest : List (Nat × List α))
    (k : Nat) (h : a.1 ≠ k) : localLen (a :: rest) k = localLen rest k := by
  obtain ⟨k2, v⟩ := a
  simp only [localLen, lookupPool]
  rw [if_neg h]

theorem sum_localLen {α : Type} :
    ∀ (l : List (Nat × List α)), (l.map Prod.fst).Nodup →
      ((l.map Prod.fst).map (localLen l)).sum = (l.map (fun p => p.2.length)).sum := by
  intro l
  induction l with
  | nil => intro _; simp
  | cons a rest ih =>
    intro h
    rw [List.map_cons] at h
    have hpair := List.nodup_cons.mp h
    rw [List.map_cons, List.map_cons, List.sum_cons, List.map_cons, List.sum_cons,
      localLen_head]
    have hcongr : (rest.map Prod.fst).map (localLen (a :: rest))
        = (rest.map Prod.fst).map (localLen rest) := by
      apply List.map_congr_left
      intro k2 hk2
      exact localLen_cons_ne a rest k2 (fun e => hpair.1 (e ▸ hk2))
    rw [hcongr, ih hpair.2]

theorem mem_erasePool {α : Type} :
    ∀ (l : List (Nat × List α)) (k : Nat) (p : Nat × List α),
      p ∈ erasePool l k → p ∈ l := by
  intro l k
  induction l with
  | nil => intro p hp; simpa [erasePool] using hp
  | cons a rest ih =>
    intro p hp
    obtain ⟨k2, v⟩ := a
    simp only [erasePool] at hp
    by_cases h : k2 = k
    · rw [if_pos h] at hp
      exact List.mem_cons_of_mem _ hp
    · rw [if_neg h] at hp
      rcases List.mem_cons.mp hp with h2 | h2
      · exact h2 ▸ List.mem_cons_self _ _
      · exact List.mem_cons_of_mem _ (ih p h2)

theorem mem_updatePool {α : Type} :
    ∀ (l : List (Nat × List α)) (k : Nat) (v : List α) (p : Nat × List α),
      p ∈ updatePool l k v → p ∈ l ∨ p = (k, v) := by
  intro l k v
  induction l with
  | nil => intro p hp; simp [updatePool] at hp
  | cons a rest ih =>
    intro p hp
    obtain ⟨k2, w⟩ := a
    simp only [updatePool] at hp
    by_cases h : k2 = k
    · rw [if_pos h] at hp
      rcases List.mem_cons.mp hp with h2 | h2
      · exact Or.inr (by rw [h2, h])
      · exact Or.inl (List.mem_cons_of_mem _ h2)
    · rw [if_neg h] at hp
      rcases List.mem_cons.mp hp with h2 | h2
      · exact Or.inl (h2 ▸ List.mem_cons_self _ _)
      · rcases ih p h2 with h3 | h3
        · exact Or.inl (List.mem_cons_of_mem _ h3)
        · exact Or.inr h3

theorem lookup_mem {α : Type} :
    ∀ (l : List (Nat × List α)) (k : Nat) (v : List α),
      lookupPool l k = some v → (k, v) ∈ l := by
  intro l k
  induction l with
  | nil => intro v hv; simp [lookupPool] at hv
  | cons a rest ih =>
    intro v hv
    obtain ⟨k2, w⟩ := a
    simp only [lookupPool] at hv
    by_cases h : k2 = k
    · rw [if_pos h] at hv
      obtain rfl : w = v := by injection hv
      exact h ▸ List.mem_cons_self _ _
    · rw [if_neg h] at hv
      exact List.mem_cons_of_mem _ (ih v hv)

/-- Claim C6: the generic pool's total count decomposes as the sum of the
per-owner local counts over the owners present in the local map plus the
shared count. -/
theorem claim_C6_Size_decomposition :
    ∀ (α : Type) (st : PoolImpl α), (st.local_pools.map Prod.fst).Nodup →
      st.Size = ((st.local_pools.map Prod.fst).map st.LocalSize).sum + st.SharedSize := by
  intro α st h
  have hfun : st.LocalSize = localLen st.local_pools := rfl
  rw [hfun]
  simp only [PoolImpl.Size, PoolImpl.SharedSize]
  rw [sum_localLen st.local_pools h]

/-- Witness for C6 at the concrete pool `poolA`. -/
theorem claim_C6_witness :
    poolA.Size = ((poolA.local_pools.map Prod.fst).map poolA.LocalSize).sum
      + poolA.SharedSize :=
  claim_C6_Size_decomposition Nat poolA (by decide)

/-- Claim C4: starting from a state with no empty local stack and no empty
shared batch, `MoveLocalToShared`, `Get` and `ReleaseUpTo` each preserve that
structural invariant. -/
theorem claim_C4_no_empty_containers :
    ∀ (α : Type) (st : PoolImpl α) (iso t T : Nat), PoolInvariant st →
      PoolInvariant (st.MoveLocalToShared iso t).2 ∧
      PoolInvariant (st.Get iso).2 ∧
      PoolInvariant (st.ReleaseUpTo T).2 := by
  intro α st iso t T hinv
  obtain ⟨hloc, hsh⟩ := hinv
  refine ⟨?_, ?_, ?_⟩
  · cases hl : lookupPool st.local_pools iso with
    | none => exact ⟨by simpa [PoolImpl.MoveLocalToShared, hl] using hloc,
        by simpa [PoolImpl.MoveLocalToShared, hl] using hsh⟩
    | some entries =>
      constructor
      · intro p hp
        simp only [PoolImpl.MoveLocalToShared, hl] at hp
        exact hloc p (mem_erasePool _ _ _ hp)
      · intro b hb
        simp only [PoolImpl.MoveLocalToShared, hl] at hb
        rcases List.mem_cons.mp hb with rfl | hb2
        · exact hloc (iso, entries) (lookup_mem st.local_pools iso entries hl)
        · exact hsh b hb2
  · cases hl : lookupPool st.local_pools iso with
    | none =>
      cases hsp : st.shared_pool with
      | nil =>
        refine ⟨by simpa [PoolImpl.Get, hl, hsp] using hloc, ?_⟩
        simpa [PoolImpl.Get, hl, hsp, hsp ▸ hsh] using hsh
      | cons b restB =>
        obtain ⟨tb, entries⟩ := b
        cases entries with
        | nil =>
          exact ⟨by simpa [PoolImpl.Get, hl, hsp] using hloc,
            by simpa [PoolImpl.Get, hl, hsp] using hsh⟩
        | cons e er =>
          cases er with
          | nil =>
            refine ⟨by simpa [PoolImpl.Get, hl, hsp] using hloc, ?_⟩
            intro b2 hb2
            simp only [PoolImpl.Get, hl, hsp, List.isEmpty_nil, if_pos] at hb2
            exact hsh b2 (hsp ▸ List.mem_cons_of_mem _ hb2)
          | cons e2 er2 =>
            refine ⟨by simpa [PoolImpl.Get, hl, hsp] using hloc, ?_⟩
            intro b2 hb2
            simp only [PoolImpl.Get, hl, hsp] at hb2
            rcases List.mem_cons.mp (by simpa using hb2) with rfl | hb3
            · simp
            · exact hsh b2 (hsp ▸ List.mem_cons_of_mem _ hb3)
    | some entries =>
      cases entries with
      | nil =>
        exact ⟨by simpa [PoolImpl.Get, hl] using hloc,
          by simpa [PoolImpl.Get, hl] using hsh⟩
      | cons e er =>
        cases er with
        | nil =>
          refine ⟨?_, by simpa [PoolImpl.Get, hl] using hsh⟩
          intro p hp
          simp only [PoolImpl.Get, hl, List.isEmpty_nil, if_pos] at hp
          exact hloc p (mem_erasePool _ _ _ hp)
        | cons e2 er2 =>
          refine ⟨?_, by simpa [PoolImpl.Get, hl] using hsh⟩
          intro p hp
          simp only [PoolImpl.Get, hl] at hp
          rcases mem_updatePool _ _ _ _ (by simpa using hp) with h2 | h2
          · exact hloc p h2
          · rw [h2]; simp
  · constructor
    · simpa [PoolImpl.ReleaseUpTo] using hloc
    · intro b hb
      simp only [PoolImpl.ReleaseUpTo] at hb
      exact hsh b (List.mem_of_mem_filter hb)

/-- Witness for C4 at the concrete pool `poolA`. -/
theorem claim_C4_witness :
    PoolInvariant (poolA.MoveLocalToShared 7 1).2 ∧
    PoolInvariant (poolA.Get 7).2 ∧
    PoolInvariant (poolA.ReleaseUpTo 0).2 :=
  claim_C4_no_empty_containers Nat poolA 7 1 0 (by refine ⟨?_, ?_⟩ <;> decide)

/-! Lemmas about the best-fit selection loop of `LargePagePoolImpl::Remove`. -/

theorem bestFitAux_some_of_some :
    ∀ (ps : List (Nat × LargePage)) (c i : Nat) (q : Nat × LargePage),
      ∃ r, LargePagePoolImpl.bestFitAux ps c i (some q) = some r := by
  intro ps
  induction ps with
  | nil => intro c i q; exact ⟨q, rfl⟩
  | cons p rest ih =>
    intro c i q
    by_cases h : p.2.size < c
    · simpa [LargePagePoolImpl.bestFitAux, h] using ih c (i + 1) q
    · by_cases h2 : p.2.size < q.2.size
      · simpa [LargePagePoolImpl.bestFitAux, h, h2] using ih c (i + 1) (i, p.2)
      · simpa [LargePagePoolImpl.bestFitAux, h, h2] using ih c (i + 1) q

theorem bestFitAux_none_iff :
    ∀ (ps : List (Nat × LargePage)) (c i : Nat),
      LargePagePoolImpl.bestFitAux ps c i none = none ↔ ∀ p ∈ ps, p.2.size < c := by
  intro ps
  induction ps with
  | nil => intro c i; simp [LargePagePoolImpl.bestFitAux]
  | cons p rest ih =>
    intro c i
    by_cases h : p.2.size < c
    · simp [LargePagePoolImpl.bestFitAux, h, ih c (i + 1)]
    · obtain ⟨r, hr⟩ := bestFitAux_some_of_some rest c (i + 1) (i, p.2)
      have hleft : LargePagePoolImpl.bestFitAux (p :: rest) c i none = some r := by
        simp [LargePagePoolImpl.bestFitAux, h, hr]
      rw [hleft]
      constructor
      · intro hcontra; cases hcontra
      · intro hall; exact absurd (hall p (List.mem_cons_self _ _)) h

theorem bestFitAux_size_le :
    ∀ (ps : List (Nat × LargePage)) (c i : Nat) (q r : Nat × LargePage),
      LargePagePoolImpl.bestFitAux ps c i (some q) = some r → r.2.size ≤ q.2.size := by
  intro ps
  induction ps with
  | nil =>
    intro c i q r h
    obtain rfl : q = r := by injection h
    exact le_refl _
  | cons p rest ih =>
    intro c i q r hr
    by_cases h : p.2.size < c
    · exact ih c (i + 1) q r (by simpa [LargePagePoolImpl.bestFitAux, h] using hr)
    · by_cases h2 : p.2.size < q.2.size
      · have h3 := ih c (i + 1) (i, p.2) r
          (by simpa [LargePagePoolImpl.bestFitAux, h, h2] using hr)
        exact le_trans h3 (le_of_lt h2)
      · exact ih c (i + 1) q r (by simpa [LargePagePoolImpl.bestFitAux, h, h2] using hr)

theorem bestFitAux_min :
    ∀ (ps : List (Nat × LargePage)) (c i : Nat) (sel : Option (Nat × LargePage))
      (r : Nat × LargePage),
      LargePagePoolImpl.bestFitAux ps c i sel = some r →
      ∀ p ∈ ps, c ≤ p.2.size → r.2.size ≤ p.2.size := by
  intro ps
  induction ps with
  | nil => intro c i sel r _ p hp; simp at hp
  | cons a rest ih =>
    intro c i sel r hr p hp hq
    rcases List.mem_cons.mp hp with rfl | hp2
    · have h : ¬(p.2.size < c) := Nat.not_lt.mpr hq
      cases sel with
      | none =>
        exact bestFitAux_size_le rest c (i + 1) (i, p.2) r
          (by simpa [LargePagePoolImpl.bestFitAux, h] using hr)
      | some q =>
        by_cases h2 : p.2.size < q.2.size
        · exact bestFitAux_size_le rest c (i + 1) (i, p.2) r
            (by simpa [LargePagePoolImpl.bestFitAux, h, h2] using hr)
        · have h3 := bestFitAux_size_le rest c (i + 1) q r
            (by simpa [LargePagePoolImpl.bestFitAux, h, h2] using hr)
          exact le_trans h3 (Nat.le_of_not_lt h2)
    · by_cases h : a.2.size < c
      · exact ih c (i + 1) sel r
          (by simpa [LargePagePoolImpl.bestFitAux, h] using hr) p hp2 hq
      · cases sel with
        | none =>
          exact ih c (i + 1) (some (i, a.2)) r
            (by simpa [LargePagePoolImpl.bestFitAux, h] using hr) p hp2 hq
        | some q =>
          by_cases h2 : a.2.size < q.2.size
          · exact ih c (i + 1) (some (i, a.2)) r
              (by simpa [LargePagePoolImpl.bestFitAux, h, h2] using hr) p hp2 hq
          · exact ih c (i + 1) (some q) r
              (by simpa [LargePagePoolImpl.bestFitAux, h, h2] using hr) p hp2 hq

theorem bestFitAux_pos :
    ∀ (ps : List (Nat × LargePage)) (c i : Nat) (sel : Option (Nat × LargePage))
      (r : Nat × LargePage),
      LargePagePoolImpl.bestFitAux ps c i sel = some r →
      sel = some r ∨
      ∃ k et, ps[k]? = some et ∧ r.1 = i + k ∧ et.2 = r.2 ∧ c ≤ r.2.size ∧
        (∀ m em, m < k → ps[m]? = some em → c ≤ em.2.size → r.2.size < em.2.size) ∧
        (∀ q, sel = some q → r.2.size < q.2.size) := by
  intro ps
  induction ps with
  | nil => intro c i sel r hr; exact Or.inl hr
  | cons a rest ih =>
    intro c i sel r hr
    by_cases h : a.2.size < c
    · rcases ih c (i + 1) sel r
        (by simpa [LargePagePoolImpl.bestFitAux, h] using hr) with
        hsel | ⟨k, et, hk, hj, het, hc, hpre, hselq⟩
      · exact Or.inl hsel
      · refine Or.inr ⟨k + 1, et, by simpa using hk, by omega, het, hc, ?_, hselq⟩
        intro m em hm hme hqe
        cases m with
        | zero =>
          obtain rfl : a = em := by simpa using hme
          exact absurd hqe (by omega)
        | succ m2 =>
          exact hpre m2 em (by omega) (by simpa using hme) hqe
    · cases sel with
      | none =>
        rcases ih c (i + 1) (some (i, a.2)) r
          (by simpa [LargePagePoolImpl.bestFitAux, h] using hr) with
          hsel | ⟨k, et, hk, hj, het, hc, hpre, hselq⟩
        · obtain rfl : (i, a.2) = r := by injection hsel
          refine Or.inr ⟨0, a, by simp, by simp, rfl, Nat.le_of_not_lt h, ?_, ?_⟩
          · intro m em hm _ _; omega
          · intro q hq; cases hq
        · have hlt : r.2.size < a.2.size := hselq (i, a.2) rfl
          refine Or.inr ⟨k + 1, et, by simpa using hk, by omega, het, hc, ?_, ?_⟩
          · intro m em hm hme hqe
            cases m with
            | zero =>
              obtain rfl : a = em := by simpa using hme
              exact hlt
            | succ m2 =>
              exact hpre m2 em (by omega) (by simpa using hme) hqe
          · intro q hq; cases hq
      | some q =>
        by_cases h2 : a.2.size < q.2.size
        · rcases ih c (i + 1) (some (i, a.2)) r
            (by simpa [LargePagePoolImpl.bestFitAux, h, h2] using hr) with
            hsel | ⟨k, et, hk, hj, het, hc, hpre, hselq⟩
          · obtain rfl : (i, a.2) = r := by injection hsel
            refine Or.inr ⟨0, a, by simp, by simp, rfl, Nat.le_of_not_lt h, ?_, ?_⟩
            · intro m em hm _ _; omega
            · intro q2 hq2
              obtain rfl : q = q2 := by injection hq2
              exact h2
          · have hlt : r.2.size < a.2.size := hselq (i, a.2) rfl
            refine Or.inr ⟨k + 1, et, by simpa using hk, by omega, het, hc, ?_, ?_⟩
            · intro m em hm hme hqe
              cases m with
              | zero =>
                obtain rfl : a = em := by simpa using hme
                exact hlt
              | succ m2 =>
                exact hpre m2 em (by omega) (by simpa using hme) hqe
            · intro q2 hq2
              obtain rfl : q = q2 := by injection hq2
              exact lt_trans hlt h2
        · rcases ih c (i + 1) (some q) r
            (by simpa [LargePagePoolImpl.bestFitAux, h, h2] using hr) with
            hsel | ⟨k, et, hk, hj, het, hc, hpre, hselq⟩
          · exact Or.inl hsel
          · have hlt : r.2.size < q.2.size := hselq q rfl
            refine Or.inr ⟨k + 1, et, by simpa using hk, by omega, het, hc, ?_, ?_⟩
            · intro m em hm hme hqe
              cases m with
              | zero =>
                obtain rfl : a = em := by simpa using hme
                exact lt_of_lt_of_le hlt (Nat.le_of_not_lt h2)
              | succ m2 =>
                exact hpre m2 em (by omega) (by simpa using hme) hqe
            · intro q2 hq2
              obtain rfl : q = q2 := by injection hq2
              exact hlt

theorem map_sum_eraseIdx {β : Type} (f : β → Nat) :
    ∀ (l : List β) (k : Nat) (et : β), l[k]? = some et →
      (l.map f).sum = ((l.eraseIdx k).map f).sum + f et := by
  intro l
  induction l with
  | nil => intro k et h; simp at h
  | cons a rest ih =>
    intro k et h
    cases k with
    | zero =>
      obtain rfl : a = et := by simpa using h
      simp [List.eraseIdx]
      omega
    | succ k2 =>
      have h2 := ih k2 et (by simpa using h)
      simp only [List.eraseIdx, List.map_cons, List.sum_cons]
      omega

theorem addAux_spec :
    ∀ (cands : List LargePage) (time mx : Nat) (st : LargePagePoolImpl),
      (LargeInvariant st →
        LargeInvariant (LargePagePoolImpl.addAux cands time mx st).2.2) ∧
      (st.total_size ≤ mx →
        (LargePagePoolImpl.addAux cands time mx st).2.2.total_size ≤ mx) ∧
      (LargePagePoolImpl.addAux cands time mx st).2.1.Sublist cands := by
  intro cands
  induction cands with
  | nil => intro time mx st; exact ⟨fun h => h, fun h => h, List.Sublist.refl []⟩
  | cons p rest ih =>
    intro time mx st
    by_cases h : st.total_size + p.size > mx
    · have ih2 := ih time mx st
      refine ⟨?_, ?_, ?_⟩
      · intro hinv
        simpa [LargePagePoolImpl.addAux, h] using ih2.1 hinv
      · intro hb
        simpa [LargePagePoolImpl.addAux, h] using ih2.2.1 hb
      · have hsub := ih2.2.2
        simpa [LargePagePoolImpl.addAux, h] using hsub.cons₂ p
    · have ih2 := ih time mx
        { pages := st.pages ++ [(time, p)], total_size := st.total_size + p.size }
      refine ⟨?_, ?_, ?_⟩
      · intro hinv
        have hinv2 : LargeInvariant
            { pages := st.pages ++ [(time, p)],
              total_size := st.total_size + p.size } := by
          simp only [LargeInvariant, LargePagePoolImpl.ComputeTotalSize] at hinv ⊢
          simp [hinv]
        simpa [LargePagePoolImpl.addAux, h] using ih2.1 hinv2
      · intro hb
        have hb2 : st.total_size + p.size ≤ mx := Nat.le_of_not_lt h
        simpa [LargePagePoolImpl.addAux, h] using ih2.2.1 hb2
      · have hsub := ih2.2.2
        simpa [LargePagePoolImpl.addAux, h] using hsub.cons p

theorem addAux_retention :
    ∀ (cands : List LargePage) (time mx : Nat) (st : LargePagePoolImpl),
      ∃ admitted : List LargePage,
        (LargePagePoolImpl.addAux cands time mx st).2.2.pages
          = st.pages ++ admitted.map (fun p => (time, p)) ∧
        (admitted ++ (LargePagePoolImpl.addAux cands time mx st).2.1).Perm cands := by
  intro cands
  induction cands with
  | nil =>
    intro time mx st
    exact ⟨[], by simp [LargePagePoolImpl.addAux], by simp [LargePagePoolImpl.addAux]⟩
  | cons p rest ih =>
    intro time mx st
    by_cases h : st.total_size + p.size > mx
    · obtain ⟨adm, hpg, hperm⟩ := ih time mx st
      refine ⟨adm, ?_, ?_⟩
      · simpa [LargePagePoolImpl.addAux, h] using hpg
      · have hkept : (LargePagePoolImpl.addAux (p :: rest) time mx st).2.1
            = p :: (LargePagePoolImpl.addAux rest time mx st).2.1 := by
          simp [LargePagePoolImpl.addAux, h]
        rw [hkept]
        exact List.perm_middle.trans (hperm.cons p)
    · obtain ⟨adm, hpg, hperm⟩ := ih time mx
        { pages := st.pages ++ [(time, p)], total_size := st.total_size + p.size }
      refine ⟨p :: adm, ?_, ?_⟩
      · have hst : (LargePagePoolImpl.addAux (p :: rest) time mx st).2.2
            = (LargePagePoolImpl.addAux rest time mx
                { pages := st.pages ++ [(time, p)],
                  total_size := st.total_size + p.size }).2.2 := by
          simp [LargePagePoolImpl.addAux, h]
        rw [hst, hpg]
        simp
      · have hkept : (LargePagePoolImpl.addAux (p :: rest) time mx st).2.1
            = (LargePagePoolImpl.addAux rest time mx
                { pages := st.pages ++ [(time, p)],
                  total_size := st.total_size + p.size }).2.1 := by
          simp [LargePagePoolImpl.addAux, h]
        rw [hkept]
        exact hperm.cons p

theorem releaseUpToAux_spec :
    ∀ (ps : List (Nat × LargePage)) (t total : Nat),
      (LargePagePoolImpl.releaseUpToAux ps t total).1
        = ps.filter (fun e => !(decide (e.1 ≤ t))) ∧
      (LargePagePoolImpl.releaseUpToAux ps t total).2
        = total - ((ps.filter (fun e => decide (e.1 ≤ t))).map
            (fun e => e.2.size)).sum := by
  intro ps
  induction ps with
  | nil => intro t total; exact ⟨rfl, by simp [LargePagePoolImpl.releaseUpToAux]⟩
  | cons e rest ih =>
    intro t total
    by_cases h : e.1 ≤ t
    · have ih2 := ih t (total - e.2.size)
      constructor
      · simpa [LargePagePoolImpl.releaseUpToAux, h, List.filter_cons] using ih2.1
      · simp only [LargePagePoolImpl.releaseUpToAux, if_pos h]
        rw [ih2.2]
        have hfc : (e :: rest).filter (fun x => decide (x.1 ≤ t))
            = e :: rest.filter (fun x => decide (x.1 ≤ t)) := by
          simp [List.filter_cons, h]
        rw [hfc, List.map_cons, List.sum_cons]
        omega
    · have ih2 := ih t total
      constructor
      · simpa [LargePagePoolImpl.releaseUpToAux, h, List.filter_cons] using ih2.1
      · have h2 := ih2.2
        simp only [LargePagePoolImpl.releaseUpToAux, if_neg h] at h2 ⊢
        simpa [List.filter_cons, h] using h2

/-- Claim C5: every mutating operation of the large pool (`Add`, `Remove`,
`ReleaseAll`, `ReleaseUpTo`) keeps the tracked aggregate equal to the sum of
the retained entry sizes; `Add` keeps the aggregate within the budget, grows
the pool only by the admitted candidates tagged with the admission time, and
the candidates it rejects survive, in their original order, inside the
caller's collection: the kept list is a sublist of the candidates and,
together with the admitted ones, a permutation of the full candidate list. -/
theorem claim_C5_large_pool_invariants :
    ∀ (st : LargePagePoolImpl) (cands : List LargePage) (time mx c T : Nat),
      LargeInvariant st →
      (LargeInvariant (st.Add cands time mx).2.2 ∧
        (st.total_size ≤ mx → (st.Add cands time mx).2.2.total_size ≤ mx) ∧
        (st.Add cands time mx).2.1.Sublist cands ∧
        (∃ admitted : List LargePage,
          (st.Add cands time mx).2.2.pages
            = st.pages ++ admitted.map (fun p => (time, p)) ∧
          (admitted ++ (st.Add cands time mx).2.1).Perm cands)) ∧
      LargeInvariant (st.Remove c).2 ∧
      LargeInvariant st.ReleaseAll ∧
      LargeInvariant (st.ReleaseUpTo T).2 := by
  intro st cands time mx c T hinv
  refine ⟨?_, ?_, ?_, ?_⟩
  · have ha := addAux_spec cands time mx st
    exact ⟨ha.1 hinv, ha.2.1, ha.2.2, addAux_retention cands time mx st⟩
  · cases hbf : LargePagePoolImpl.bestFitAux st.pages c 0 none with
    | none => simpa [LargePagePoolImpl.Remove, hbf] using hinv
    | some r =>
      obtain ⟨j, pg⟩ := r
      rcases bestFitAux_pos st.pages c 0 none (j, pg) hbf with hsel |
        ⟨k, et, hk, hj, het, _, _, _⟩
      · cases hsel
      · obtain rfl : j = k := by simpa using hj
        have hsum := map_sum_eraseIdx (fun e => e.2.size) st.pages j et hk
        dsimp only at hsum
        simp only [LargeInvariant, LargePagePoolImpl.ComputeTotalSize] at hinv ⊢
        simp only [LargePagePoolImpl.Remove, hbf]
        have hpg : et.2.size = pg.size := by rw [het]
        omega
  · simp [LargeInvariant, LargePagePoolImpl.ReleaseAll,
      LargePagePoolImpl.ComputeTotalSize]
  · have hr := releaseUpToAux_spec st.pages T st.total_size
    have hpart := filter_map_sum_partition st.pages
      (fun e => decide (e.1 ≤ T)) (fun e => e.2.size)
    simp only [LargeInvariant, LargePagePoolImpl.ComputeTotalSize] at hinv ⊢
    simp only [LargePagePoolImpl.ReleaseUpTo, hr.1, hr.2]
    omega

/-- Witness for C5 at the concrete pool `thirtyPool` with a 100-byte candidate
against a budget of 60. -/
theorem claim_C5_witness :
    (LargeInvariant (thirtyPool.Add [{ id := 4, size := 100 }] 1 60).2.2 ∧
      (thirtyPool.total_size ≤ 60 →
        (thirtyPool.Add [{ id := 4, size := 100 }] 1 60).2.2.total_size ≤ 60) ∧
      (thirtyPool.Add [{ id := 4, size := 100 }] 1 60).2.1.Sublist
        [{ id := 4, size := 100 }] ∧
      (∃ admitted : List LargePage,
        (thirtyPool.Add [{ id := 4, size := 100 }] 1 60).2.2.pages
          = thirtyPool.pages ++ admitted.map (fun p => (1, p)) ∧
        (admitted ++ (thirtyPool.Add [{ id := 4, size := 100 }] 1 60).2.1).Perm
          [{ id := 4, size := 100 }])) ∧
    LargeInvariant (thirtyPool.Remove 15).2 ∧
    LargeInvariant thirtyPool.ReleaseAll ∧
    LargeInvariant (thirtyPool.ReleaseUpTo 0).2 :=
  claim_C5_large_pool_invariants thirtyPool [{ id := 4, size := 100 }] 1 60 15 0 rfl

/-- Claim C2: `LargePagePoolImpl::Remove` performs best-fit selection — it
returns `none` exactly when no retained page is at least the requested size;
otherwise it returns a retained page of minimal qualifying size whose every
strictly earlier qualifying entry is strictly larger (so the earliest-inserted
entry wins ties), erases that entry and subtracts its size from the
aggregate. -/
theorem claim_C2_Remove_best_fit :
    ∀ (st : LargePagePoolImpl) (c : Nat),
      ((st.Remove c).1 = none ↔ ∀ p ∈ st.pages, p.2.size < c) ∧
      ((st.Remove c).1 = none → (st.Remove c).2 = st) ∧
      (∀ pg, (st.Remove c).1 = some pg →
        c ≤ pg.size ∧
        (∀ p ∈ st.pages, c ≤ p.2.size → pg.size ≤ p.2.size) ∧
        (∃ k et, st.pages[k]? = some et ∧ et.2 = pg ∧
          (∀ m em, m < k → st.pages[m]? = some em → c ≤ em.2.size →
            pg.size < em.2.size) ∧
          (st.Remove c).2.pages = st.pages.eraseIdx k ∧
          (st.Remove c).2.total_size = st.total_size - pg.size)) := by
  intro st c
  cases hbf : LargePagePoolImpl.bestFitAux st.pages c 0 none with
  | none =>
    refine ⟨?_, ?_, ?_⟩
    · constructor
      · intro _; exact (bestFitAux_none_iff st.pages c 0).mp hbf
      · intro _; simp [LargePagePoolImpl.Remove, hbf]
    · intro _; simp [LargePagePoolImpl.Remove, hbf]
    · intro pg hpg
      rw [show (st.Remove c).1 = none by simp [LargePagePoolImpl.Remove, hbf]] at hpg
      cases hpg
  | some r =>
    obtain ⟨j, pg0⟩ := r
    have hr1 : (st.Remove c).1 = some pg0 := by simp [LargePagePoolImpl.Remove, hbf]
    rcases bestFitAux_pos st.pages c 0 none (j, pg0) hbf with hsel |
      ⟨k, et, hk, hj, het, hc, hpre, _⟩
    · cases hsel
    · obtain rfl : j = k := by simpa using hj
      refine ⟨?_, ?_, ?_⟩
      · rw [hr1]
        constructor
        · intro hcontra; cases hcontra
        · intro hall
          exact absurd (het ▸ hall et (List.getElem?_mem hk)) (by omega)
      · intro h0; rw [hr1] at h0; cases h0
      · intro pg hpg
        rw [hr1] at hpg
        obtain rfl : pg0 = pg := by injection hpg
        refine ⟨hc, ?_, j, et, hk, het, hpre, ?_, ?_⟩
        · intro p hp hq
          exact bestFitAux_min st.pages c 0 none (j, pg0) hbf p hp hq
        · simp [LargePagePoolImpl.Remove, hbf]
        · simp [LargePagePoolImpl.Remove, hbf]

/-- Witness for C2: with retained sizes 10, 20, 30, `Remove 15` returns the
size-20 chunk and `Remove 35` returns none (spec section 8). -/
theorem claim_C2_witness :
    (thirtyPool.Remove 15).1 = some { id := 2, size := 20 } ∧
    (thirtyPool.Remove 35).1 = none := by
  refine ⟨by decide, ?_⟩
  exact (claim_C2_Remove_best_fit thirtyPool 35).1.mpr (by decide)

/-! Lemmas about `PutLocal` stacking, key lookup and the drain behaviour of
`Get`, used by claims C3 and C8. -/

theorem lookup_putLocalList {α : Type} :
    ∀ (l : List (Nat × List α)) (k : Nat) (e : α),
      lookupPool (putLocalList l k e) k = some (e :: (lookupPool l k).getD []) := by
  intro l k e
  induction l with
  | nil => simp [putLocalList, lookupPool]
  | cons a rest ih =>
    obtain ⟨k2, v⟩ := a
    by_cases h : k2 = k
    · simp [putLocalList, lookupPool, h]
    · simp only [putLocalList, lookupPool, if_neg h]
      exact ih

theorem mem_keys_putLocalList {α : Type} :
    ∀ (l : List (Nat × List α)) (k : Nat) (e : α) (k2 : Nat),
      k2 ∈ (putLocalList l k e).map Prod.fst ↔ (k2 ∈ l.map Prod.fst ∨ k2 = k) := by
  intro l k e
  induction l with
  | nil => intro k2; simp [putLocalList]
  | cons a rest ih =>
    intro k2
    obtain ⟨k3, v⟩ := a
    by_cases h : k3 = k
    · subst h
      rw [show putLocalList ((k3, v) :: rest) k3 e = (k3, e :: v) :: rest by
        simp [putLocalList]]
      simp only [List.map_cons, List.mem_cons]
      tauto
    · simp only [putLocalList, if_neg h, List.map_cons, List.mem_cons, ih k2]
      tauto

theorem nodup_keys_putLocalList {α : Type} :
    ∀ (l : List (Nat × List α)) (k : Nat) (e : α),
      (l.map Prod.fst).Nodup → ((putLocalList l k e).map Prod.fst).Nodup := by
  intro l k e
  induction l with
  | nil => intro _; simp [putLocalList]
  | cons a rest ih =>
    intro h
    obtain ⟨k3, v⟩ := a
    rw [List.map_cons] at h
    have hpair := List.nodup_cons.mp h
    by_cases h2 : k3 = k
    · rw [show putLocalList ((k3, v) :: rest) k e = (k3, e :: v) :: rest by
        simp [putLocalList, h2]]
      rw [List.map_cons]
      exact List.nodup_cons.mpr hpair
    · rw [show putLocalList ((k3, v) :: rest) k e
          = (k3, v) :: putLocalList rest k e by simp [putLocalList, h2]]
      rw [List.map_cons]
      refine List.nodup_cons.mpr ⟨?_, ih hpair.2⟩
      intro hmem
      rcases (mem_keys_putLocalList rest k e k3).mp hmem with h3 | h3
      · exact hpair.1 h3
      · exact h2 h3

theorem lookup_not_mem {α : Type} :
    ∀ (l : List (Nat × List α)) (k : Nat),
      k ∉ l.map Prod.fst → lookupPool l k = none := by
  intro l k
  induction l with
  | nil => intro _; rfl
  | cons a rest ih =>
    intro h
    obtain ⟨k2, v⟩ := a
    rw [List.map_cons, List.mem_cons] at h
    push_neg at h
    simp only [lookupPool]
    rw [if_neg (fun e => h.1 e.symm)]
    exact ih h.2

theorem lookup_erasePool_self {α : Type} :
    ∀ (l : List (Nat × List α)) (k : Nat),
      (l.map Prod.fst).Nodup → lookupPool (erasePool l k) k = none := by
  intro l k
  induction l with
  | nil => intro _; rfl
  | cons a rest ih =>
    intro h
    obtain ⟨k2, v⟩ := a
    rw [List.map_cons] at h
    have hpair := List.nodup_cons.mp h
    by_cases h2 : k2 = k
    · rw [show erasePool ((k2, v) :: rest) k = rest by simp [erasePool, h2]]
      exact lookup_not_mem rest k (h2 ▸ hpair.1)
    · rw [show erasePool ((k2, v) :: rest) k = (k2, v) :: erasePool rest k by
        simp [erasePool, h2]]
      simp only [lookupPool, if_neg h2]
      exact ih hpair.2

theorem lookup_updatePool_self {α : Type} :
    ∀ (l : List (Nat × List α)) (k : Nat) (v w : List α),
      lookupPool l k = some w → lookupPool (updatePool l k v) k = some v := by
  intro l k v
  induction l with
  | nil => intro w h; simp [lookupPool] at h
  | cons a rest ih =>
    intro w h
    obtain ⟨k2, u⟩ := a
    by_cases h2 : k2 = k
    · simp [updatePool, lookupPool, h2]
    · simp only [lookupPool, if_neg h2] at h
      rw [show updatePool ((k2, u) :: rest) k v = (k2, u) :: updatePool rest k v by
        simp [updatePool, h2]]
      simp only [lookupPool]
      rw [if_neg h2]
      exact ih w h

theorem keys_updatePool {α : Type} :
    ∀ (l : List (Nat × List α)) (k : Nat) (v : List α),
      (updatePool l k v).map Prod.fst = l.map Prod.fst := by
  intro l k v
  induction l with
  | nil => rfl
  | cons a rest ih =>
    obtain ⟨k2, u⟩ := a
    by_cases h : k2 = k
    · simp [updatePool, h]
    · simp only [updatePool, if_neg h, List.map_cons, ih]

theorem getSeq_succ {α : Type} (st : PoolImpl α) (iso n : Nat) :
    getSeq st iso (n + 1) = (st.Get iso).1 :: getSeq (st.Get iso).2 iso n := rfl

theorem putAll_shared {α : Type} :
    ∀ (es : List α) (st : PoolImpl α) (iso : Nat),
      (putAll st iso es).shared_pool = st.shared_pool := by
  intro es
  induction es with
  | nil => intro st iso; rfl
  | cons e es2 ih =>
    intro st iso
    exact ih (st.PutLocal iso e) iso

theorem putAll_local {α : Type} :
    ∀ (es : List α) (st : PoolImpl α) (iso : Nat),
      (putAll st iso es).local_pools
        = es.foldl (fun l e => putLocalList l iso e) st.local_pools := by
  intro es
  induction es with
  | nil => intro st iso; rfl
  | cons e es2 ih =>
    intro st iso
    exact ih (st.PutLocal iso e) iso

theorem lookup_foldl_put {α : Type} :
    ∀ (es : List α) (l : List (Nat × List α)) (k : Nat) (cur : List α),
      lookupPool l k = some cur →
      lookupPool (es.foldl (fun l2 e => putLocalList l2 k e) l) k
        = some (es.reverse ++ cur) := by
  intro es
  induction es with
  | nil => intro l k cur h; simpa using h
  | cons e es2 ih =>
    intro l k cur h
    have h2 : lookupPool (putLocalList l k e) k = some (e :: cur) := by
      rw [lookup_putLocalList l k e, h]
      rfl
    have h3 := ih (putLocalList l k e) k (e :: cur) h2
    simpa [List.append_assoc] using h3

theorem nodup_foldl_put {α : Type} :
    ∀ (es : List α) (l : List (Nat × List α)) (k : Nat),
      (l.map Prod.fst).Nodup →
      ((es.foldl (fun l2 e => putLocalList l2 k e) l).map Prod.fst).Nodup := by
  intro es
  induction es with
  | nil => intro l k h; exact h
  | cons e es2 ih =>
    intro l k h
    exact ih (putLocalList l k e) k (nodup_keys_putLocalList l k e h)

theorem getSeq_drain {α : Type} :
    ∀ (stack : List α) (st : PoolImpl α) (iso : Nat),
      (st.local_pools.map Prod.fst).Nodup →
      lookupPool st.local_pools iso = some stack →
      stack ≠ [] →
      st.shared_pool = [] →
      getSeq st iso (stack.length + 1) = stack.map some ++ [none] := by
  intro stack
  induction stack with
  | nil => intro st iso _ _ hne _; exact absurd rfl hne
  | cons e rest ih =>
    intro st iso hnd hl hne hsh
    cases rest with
    | nil =>
      have hl2 : lookupPool (erasePool st.local_pools iso) iso = none :=
        lookup_erasePool_self st.local_pools iso hnd
      simp [getSeq, PoolImpl.Get, hl, hl2, hsh]
    | cons e2 rest2 =>
      have hl2 : lookupPool (updatePool st.local_pools iso (e2 :: rest2)) iso
          = some (e2 :: rest2) :=
        lookup_updatePool_self st.local_pools iso (e2 :: rest2) (e :: e2 :: rest2) hl
      have hnd2 : ((updatePool st.local_pools iso (e2 :: rest2)).map Prod.fst).Nodup := by
        rw [keys_updatePool]
        exact hnd
      have hdrain := ih
        { st with local_pools := updatePool st.local_pools iso (e2 :: rest2) }
        iso hnd2 hl2 (by simp) hsh
      have hget : st.Get iso
          = (some e, { st with
              local_pools := updatePool st.local_pools iso (e2 :: rest2) }) := by
        simp [PoolImpl.Get, hl]
      rw [show (e :: e2 :: rest2).length + 1 = ((e2 :: rest2).length + 1) + 1 by simp]
      rw [getSeq_succ, hget]
      dsimp only
      rw [hdrain]
      simp

/-- Claim C3: `Get` prefers the owner's local stack (leaving the shared tier
untouched), falls back to popping the most recently pushed shared batch
(removing the batch once drained), returns none when both are empty, and a
run of `PutLocal` admissions followed by lookups by the same owner drains in
strict reverse-admission order before reporting none. -/
theorem claim_C3_Get_spec :
    ∀ (α : Type) (st : PoolImpl α) (iso : Nat),
      (∀ (e : α) (entriesRest : List α),
        lookupPool st.local_pools iso = some (e :: entriesRest) →
        (st.Get iso).1 = some e ∧ (st.Get iso).2.shared_pool = st.shared_pool) ∧
      (∀ (t : Nat) (e : α) (entriesRest : List α)
        (restBatches : List (Nat × List α)),
        lookupPool st.local_pools iso = none →
        st.shared_pool = (t, e :: entriesRest) :: restBatches →
        (st.Get iso).1 = some e ∧
        (st.Get iso).2.shared_pool
          = (if entriesRest.isEmpty then restBatches
             else (t, entriesRest) :: restBatches) ∧
        (st.Get iso).2.local_pools = st.local_pools) ∧
      (lookupPool st.local_pools iso = none → st.shared_pool = [] →
        st.Get iso = (none, st)) ∧
      (∀ es : List α,
        lookupPool st.local_pools iso = none → st.shared_pool = [] →
        (st.local_pools.map Prod.fst).Nodup →
        getSeq (putAll st iso es) iso (es.length + 1)
          = es.reverse.map some ++ [none]) := by
  intro α st iso
  refine ⟨?_, ?_, ?_, ?_⟩
  · intro e entriesRest hl
    cases entriesRest with
    | nil => exact ⟨by simp [PoolImpl.Get, hl], by simp [PoolImpl.Get, hl]⟩
    | cons e2 r2 => exact ⟨by simp [PoolImpl.Get, hl], by simp [PoolImpl.Get, hl]⟩
  · intro t e entriesRest restBatches hl hsp
    cases entriesRest with
    | nil =>
      refine ⟨by simp [PoolImpl.Get, hl, hsp], ?_, by simp [PoolImpl.Get, hl, hsp]⟩
      simp [PoolImpl.Get, hl, hsp]
    | cons e2 r2 =>
      refine ⟨by simp [PoolImpl.Get, hl, hsp], ?_, by simp [PoolImpl.Get, hl, hsp]⟩
      simp [PoolImpl.Get, hl, hsp]
  · intro hl hsp
    simp [PoolImpl.Get, hl, hsp]
  · intro es hl hsp hnd
    cases es with
    | nil =>
      simp [putAll, getSeq, PoolImpl.Get, hl, hsp]
    | cons e es2 =>
      have hlocal := putAll_local (e :: es2) st iso
      have hshared := putAll_shared (e :: es2) st iso
      have hput1 : lookupPool (putLocalList st.local_pools iso e) iso = some [e] := by
        rw [lookup_putLocalList st.local_pools iso e, hl]
        rfl
      have hlook : lookupPool (putAll st iso (e :: es2)).local_pools iso
          = some ((e :: es2).reverse) := by
        rw [hlocal]
        simp only [List.foldl_cons]
        have h3 := lookup_foldl_put es2 (putLocalList st.local_pools iso e) iso [e] hput1
        rw [h3]
        simp
      have hnd2 : ((putAll st iso (e :: es2)).local_pools.map Prod.fst).Nodup := by
        rw [hlocal]
        simp only [List.foldl_cons]
        exact nodup_foldl_put es2 (putLocalList st.local_pools iso e) iso
          (nodup_keys_putLocalList st.local_pools iso e hnd)
      have hdrain := getSeq_drain ((e :: es2).reverse) (putAll st iso (e :: es2)) iso
        hnd2 hlook (by simp) (by rw [hshared]; exact hsp)
      rw [show (e :: es2).length = (e :: es2).reverse.length by simp]
      exact hdrain

/-- Witness for C3: admitting 10, 20, 30 and then reading four times yields
30, 20, 10, none. -/
theorem claim_C3_witness :
    getSeq (putAll ({ local_pools := [], shared_pool := [] } : PoolImpl Nat) 4
        [10, 20, 30]) 4 4
      = [some 30, some 20, some 10, none] := by
  have h := (claim_C3_Get_spec Nat { local_pools := [], shared_pool := [] } 4).2.2.2
    [10, 20, 30] (by decide) rfl (by decide)
  simpa using h

/-! Lemmas about `MoveLocalToShared`, used by claim C8. -/

theorem move_shared_empty {α : Type} (st : PoolImpl α) (iso t : Nat) :
    (st.MoveLocalToShared iso t).1 = false →
    (st.MoveLocalToShared iso t).2.shared_pool = [] := by
  intro h
  cases hl : lookupPool st.local_pools iso with
  | none =>
    simp only [PoolImpl.MoveLocalToShared, hl] at h ⊢
    simpa [List.isEmpty_iff] using h
  | some entries =>
    simp [PoolImpl.MoveLocalToShared, hl] at h

theorem move_lookup_none {α : Type} (st : PoolImpl α) (iso t : Nat) :
    (st.local_pools.map Prod.fst).Nodup →
    lookupPool st.local_pools iso = none →
    lookupPool (st.MoveLocalToShared iso t).2.local_pools iso = none := by
  intro _ hl
  simp [PoolImpl.MoveLocalToShared, hl]

theorem move_lookup_none_of_some {α : Type} (st : PoolImpl α) (iso t : Nat)
    (entries : List α) :
    (st.local_pools.map Prod.fst).Nodup →
    lookupPool st.local_pools iso = some entries →
    lookupPool (st.MoveLocalToShared iso t).2.local_pools iso = none := by
  intro hnd hl
  simp only [PoolImpl.MoveLocalToShared, hl]
  exact lookup_erasePool_self st.local_pools iso hnd

theorem move_lookup_gone {α : Type} (st : PoolImpl α) (iso t : Nat) :
    (st.local_pools.map Prod.fst).Nodup →
    lookupPool (st.MoveLocalToShared iso t).2.local_pools iso = none := by
  intro hnd
  cases hl : lookupPool st.local_pools iso with
  | none => exact move_lookup_none st iso t hnd hl
  | some entries => exact move_lookup_none_of_some st iso t entries hnd hl

theorem move_shared_of_some {α : Type} (st : PoolImpl α) (iso t : Nat)
    (entries : List α) :
    lookupPool st.local_pools iso = some entries →
    (st.MoveLocalToShared iso t).2.shared_pool = (t, entries) :: st.shared_pool := by
  intro hl
  simp [PoolImpl.MoveLocalToShared, hl]

theorem ReleaseShared_of_empty {α : Type} (st : PoolImpl α) :
    st.shared_pool = [] → st.ReleaseShared = st := by
  intro h
  cases st with
  | mk l s =>
    have h2 : s = [] := h
    subst h2
    rfl

/-- Claim C8: with cross-context sharing enabled, `ReleaseOnTearDown` migrates
the owner's local pages and local zone reservations into their respective
shared tiers as batches tagged with the fresh logical time `next_time` (shown
directly in the peer-exists case for both pools); when no live peer isolate
exists, the resulting generic pools are exactly the migrated pools with their
shared tiers released synchronously, so both shared tiers are empty when the
call returns and the owner's local stacks are gone; the large pool is emptied
on this path in every case, and the logical clock advances. -/
theorem claim_C8_teardown_releases_when_no_peer :
    ∀ (π ζ : Type) (pp : PagePoolState π ζ) (iso : Nat),
      (pp.page_pool.local_pools.map Prod.fst).Nodup →
      (pp.zone_pool.local_pools.map Prod.fst).Nodup →
      ((pp.ReleaseOnTearDown iso true false).page_pool
          = (pp.page_pool.MoveLocalToShared iso pp.next_time).2.ReleaseShared ∧
        (pp.ReleaseOnTearDown iso true false).zone_pool
          = (pp.zone_pool.MoveLocalToShared iso pp.next_time).2.ReleaseShared ∧
        (pp.ReleaseOnTearDown iso true false).page_pool.shared_pool = [] ∧
        (pp.ReleaseOnTearDown iso true false).zone_pool.shared_pool = [] ∧
        (pp.ReleaseOnTearDown iso true false).large_pool.pages = [] ∧
        (pp.ReleaseOnTearDown iso true false).large_pool.total_size = 0 ∧
        lookupPool (pp.ReleaseOnTearDown iso true false).page_pool.local_pools iso
          = none ∧
        lookupPool (pp.ReleaseOnTearDown iso true false).zone_pool.local_pools iso
          = none) ∧
      (∀ entries, lookupPool pp.page_pool.local_pools iso = some entries →
        (pp.ReleaseOnTearDown iso true true).page_pool.shared_pool
          = (pp.next_time, entries) :: pp.page_pool.shared_pool) ∧
      (∀ zentries, lookupPool pp.zone_pool.local_pools iso = some zentries →
        (pp.ReleaseOnTearDown iso true true).zone_pool.shared_pool
          = (pp.next_time, zentries) :: pp.zone_pool.shared_pool) ∧
      (pp.ReleaseOnTearDown iso true true).large_pool.pages = [] ∧
      (pp.ReleaseOnTearDown iso true false).next_time = pp.next_time + 1 := by
  intro π ζ pp iso hndp hndz
  have hcomp : (pp.ReleaseOnTearDown iso true false).page_pool
        = (pp.page_pool.MoveLocalToShared iso pp.next_time).2.ReleaseShared ∧
      (pp.ReleaseOnTearDown iso true false).zone_pool
        = (pp.zone_pool.MoveLocalToShared iso pp.next_time).2.ReleaseShared := by
    cases hb : ((pp.page_pool.MoveLocalToShared iso pp.next_time).1
        || (pp.zone_pool.MoveLocalToShared iso pp.next_time).1) with
    | true => constructor <;> simp [PagePoolState.ReleaseOnTearDown, hb]
    | false =>
      have hb2 := Bool.or_eq_false_iff.mp hb
      constructor <;>
        simp [PagePoolState.ReleaseOnTearDown, hb,
          ReleaseShared_of_empty _ (move_shared_empty _ iso pp.next_time hb2.1),
          ReleaseShared_of_empty _ (move_shared_empty _ iso pp.next_time hb2.2)]
  refine ⟨⟨hcomp.1, hcomp.2, ?_, ?_, ?_, ?_, ?_, ?_⟩, ?_, ?_, ?_, ?_⟩
  · rw [hcomp.1]; rfl
  · rw [hcomp.2]; rfl
  · rfl
  · rfl
  · rw [hcomp.1]
    exact move_lookup_gone pp.page_pool iso pp.next_time hndp
  · rw [hcomp.2]
    exact move_lookup_gone pp.zone_pool iso pp.next_time hndz
  · intro entries hl
    simp [PagePoolState.ReleaseOnTearDown,
      move_shared_of_some pp.page_pool iso pp.next_time entries hl]
  · intro zentries hl
    simp [PagePoolState.ReleaseOnTearDown,
      move_shared_of_some pp.zone_pool iso pp.next_time zentries hl]
  · simp [PagePoolState.ReleaseOnTearDown, LargePagePoolImpl.ReleaseAll]
  · rfl

/-- Witness for C8: owner 7 admitted three pages in `ppA`; tearing down with
sharing enabled and no peer leaves every tier empty and the total pooled
count at zero. -/
theorem claim_C8_witness :
    ((ppA.ReleaseOnTearDown 7 true false).page_pool
        = (ppA.page_pool.MoveLocalToShared 7 ppA.next_time).2.ReleaseShared ∧
      (ppA.ReleaseOnTearDown 7 true false).zone_pool
        = (ppA.zone_pool.MoveLocalToShared 7 ppA.next_time).2.ReleaseShared ∧
      (ppA.ReleaseOnTearDown 7 true false).page_pool.shared_pool = [] ∧
      (ppA.ReleaseOnTearDown 7 true false).zone_pool.shared_pool = [] ∧
      (ppA.ReleaseOnTearDown 7 true false).large_pool.pages = [] ∧
      (ppA.ReleaseOnTearDown 7 true false).large_pool.total_size = 0 ∧
      lookupPool (ppA.ReleaseOnTearDown 7 true false).page_pool.local_pools 7
        = none ∧
      lookupPool (ppA.ReleaseOnTearDown 7 true false).zone_pool.local_pools 7
        = none) ∧
    (ppA.ReleaseOnTearDown 7 true false).GetTotalCount = 0 :=
  ⟨(claim_C8_teardown_releases_when_no_peer Nat Nat ppA 7 (by decide) (by decide)).1,
    by decide⟩

end PagePoolModel
